import Mathlib

/-!
Shallow embedding of the YAML-frontmatter parser of `src/validate-skill.js`
(`parseFrontmatter`, `parseYamlBlock`, lines 33-94), together with theorems
settling the specification claims about it.

Strings are modelled as `List Char`.  JavaScript regular-expression character
classes are modelled over their ASCII portion (`\s`, `\w`); the claims under
study involve only ASCII text.  JavaScript numbers inside inline JSON are kept
as their source literal (no claim depends on numeric identity).

The `while` loop of `parseYamlBlock` does not always advance its index `i`
(lines 90-91 of the source increment `i` only for string/boolean values), so
the loop can run forever.  The embedding therefore threads an explicit fuel
counter: a `none` result means the loop was still running when the fuel ran
out (for every fuel), i.e. the concrete JavaScript loop never exits; a
`some` result is the value the JavaScript function returns.
-/

namespace VSkill

/-- Strings are modelled as lists of characters. -/
abbrev Str := List Char

/-- The single-quote character (U+0027), used by the quoted-value branch. -/
def squote : Char := Char.ofNat 39

/-- ASCII portion of the JS regex class `\s` (whitespace). -/
def isWS (c : Char) : Bool :=
  c = ' ' || c = '\t' || c = '\n' || c = '\r' || c = '\x0b' || c = '\x0c'

/-- The JS regex class `[\w.-]` used for keys: ASCII word chars, dot, hyphen. -/
def isWordDotDash (c : Char) : Bool :=
  c.isAlphanum || c = '_' || c = '.' || c = '-'

/-- The JS regex `.` (dot): any character except a line terminator. -/
def isDotChar (c : Char) : Bool :=
  !(c = '\n' || c = '\r' || c = '\u2028' || c = '\u2029')

/-- Test of `/^\s*$/` : the line is entirely whitespace. -/
def isBlankLine (l : Str) : Bool := l.all isWS

/-- `value.startsWith(c)` for a one-character pattern. -/
def startsWith1 (c : Char) (s : Str) : Bool :=
  match s with
  | c' :: _ => c' = c
  | [] => false

/-- Test of `/^\s*#/` : first non-whitespace character is `#`. -/
def isCommentLine (l : Str) : Bool :=
  startsWith1 '#' (l.dropWhile isWS)

/-- `line.search(/\S/)` for a non-blank line: index of first non-whitespace
character (returns the length on an all-whitespace line, which the parser
never queries since blank lines are skipped first). -/
def idxNonWS : Str → Nat
  | [] => 0
  | c :: cs => if isWS c then idxNonWS cs + 1 else 0

/-- Left part of JS `String.prototype.trim`. -/
def trimL (s : Str) : Str := s.dropWhile isWS

/-- Right part of JS `String.prototype.trim`. -/
def trimR (s : Str) : Str := (s.reverse.dropWhile isWS).reverse

/-- JS `String.prototype.trim` (ASCII whitespace portion). -/
def trimStr (s : Str) : Str := trimL (trimR s)

/-- `value.endsWith(c)` for a one-character pattern. -/
def endsWith1 (c : Char) (s : Str) : Bool :=
  match s.getLast? with
  | some d => d = c
  | none => false

/-- The match `line.match(/^(\s*)([\w.-]+)\s*:\s*(.*))/` of line 50 of the
source, returning the key (group 2) and the raw value (group 3).  The greedy
runs cannot backtrack usefully (characters surrendered by `[\w.-]+` or `\s*`
never match the following `:`), so the match succeeds exactly when, after the
maximal leading whitespace run, there is a nonempty maximal `[\w.-]` run, then
optional whitespace, then `:`.  Group 3 is the rest of the line after the
colon and the following maximal whitespace run, truncated at a line
terminator (the JS `.` does not match those). -/
def matchKV (l : Str) : Option (Str × Str) :=
  if ((l.dropWhile isWS).takeWhile isWordDotDash).isEmpty then none
  else
    match ((l.dropWhile isWS).dropWhile isWordDotDash).dropWhile isWS with
    | ':' :: rest =>
      some ((l.dropWhile isWS).takeWhile isWordDotDash,
        (rest.dropWhile isWS).takeWhile isDotChar)
    | _ => none

/-- The JavaScript values the parser stores: strings, booleans, JSON numbers
(kept as their literal), JSON `null`, arrays and objects.  Block lists become
`arr` of `str`; nested block mappings and inline JSON objects become `map`. -/
inductive Value where
  | str (s : Str)
  | bool (b : Bool)
  | num (lit : Str)
  | null
  | arr (elems : List Value)
  | map (entries : List (Str × Value))

/-- A parsed mapping: insertion-ordered key/value entries (a JS object). -/
abbrev Mapping := List (Str × Value)

/-- JS object assignment `result[key] = v`: overwrite in place when the key is
present, append otherwise. -/
def insertEntry (k : Str) (v : Value) : Mapping → Mapping
  | [] => [(k, v)]
  | (k', v') :: rest =>
    if k' = k then (k', v) :: rest else (k', v') :: insertEntry k v rest

/-! ### Inline JSON (`JSON.parse`)

The source delegates inline values beginning with `{` or `[` to the strict
ECMA-404 `JSON.parse`.  The grammar is embedded below; parsing is fueled, and
the top-level call supplies fuel `2 * length + 2`, enough because every level
of recursion first consumes at least one character. -/

/-- JSON whitespace: space, tab, line feed, carriage return. -/
def isJsonWS (c : Char) : Bool :=
  c = ' ' || c = '\t' || c = '\n' || c = '\r'

/-- Hex digit test for `\u` escapes. -/
def isHexDigit (c : Char) : Bool :=
  c.isDigit || ('a' ≤ c && c ≤ 'f') || ('A' ≤ c && c ≤ 'F')

/-- Numeric value of a hex digit. -/
def hexVal (c : Char) : Nat :=
  if c.isDigit then c.toNat - 48
  else if 'a' ≤ c then c.toNat - 87
  else c.toNat - 55

/-- Single-character JSON string escapes. -/
def escChar (e : Char) : Option Char :=
  if e = '"' then some '"'
  else if e = '\\' then some '\\'
  else if e = '/' then some '/'
  else if e = 'b' then some '\x08'
  else if e = 'f' then some '\x0c'
  else if e = 'n' then some '\n'
  else if e = 'r' then some '\r'
  else if e = 't' then some '\t'
  else none

/-- JSON string body, after the opening quote: decoded content and rest.
Surrogate pairing of `\u` escapes is not modelled (each escape becomes one
scalar value); no claim involves non-BMP text. -/
def jsonStringRest : Str → Option (Str × Str)
  | [] => none
  | c :: rest =>
    if c = '"' then some ([], rest)
    else if c = '\\' then
      match rest with
      | 'u' :: h1 :: h2 :: h3 :: h4 :: r =>
        if isHexDigit h1 && isHexDigit h2 && isHexDigit h3 && isHexDigit h4 then
          Option.map
            (fun p =>
              (Char.ofNat
                  (((hexVal h1 * 16 + hexVal h2) * 16 + hexVal h3) * 16 + hexVal h4)
                :: p.1, p.2))
            (jsonStringRest r)
        else none
      | e :: r =>
        match escChar e with
        | some d => Option.map (fun p => (d :: p.1, p.2)) (jsonStringRest r)
        | none => none
      | [] => none
    else if c.toNat < 32 then none
    else Option.map (fun p => (c :: p.1, p.2)) (jsonStringRest rest)

/-- Optional exponent part of a JSON number, appended to the literal
accumulated so far. -/
def jsonExpPart (acc : Str) (s : Str) : Option (Str × Str) :=
  match s with
  | e :: r =>
    if e = 'e' || e = 'E' then
      let p := match r with
        | '+' :: rr => (['+'], rr)
        | '-' :: rr => (['-'], rr)
        | _ => (([] : Str), r)
      let ds := p.2.takeWhile Char.isDigit
      if ds.isEmpty then none
      else some (acc ++ e :: p.1 ++ ds, p.2.dropWhile Char.isDigit)
    else some (acc, s)
  | [] => some (acc, [])

/-- Integer part of a JSON number: `0` or a nonzero digit followed by digits. -/
def jsonIntPart : Str → Option (Str × Str)
  | '0' :: rest => some (['0'], rest)
  | c :: rest =>
    if c.isDigit then
      some (c :: rest.takeWhile Char.isDigit, rest.dropWhile Char.isDigit)
    else none
  | [] => none

/-- A JSON number literal: `-? int frac? exp?`.  Returns the literal text. -/
def jsonNumber (s : Str) : Option (Str × Str) :=
  let p := match s with
    | '-' :: r => ((['-'] : Str), r)
    | _ => (([] : Str), s)
  match jsonIntPart p.2 with
  | none => none
  | some (ip, s2) =>
    match s2 with
    | '.' :: r2 =>
      let ds := r2.takeWhile Char.isDigit
      if ds.isEmpty then none
      else jsonExpPart (p.1 ++ ip ++ '.' :: ds) (r2.dropWhile Char.isDigit)
    | _ => jsonExpPart (p.1 ++ ip) s2

mutual

/-- A JSON value, by recursive descent with fuel. -/
def jsonVal : Nat → Str → Option (Value × Str)
  | 0, _ => none
  | Nat.succ f, s =>
    match s.dropWhile isJsonWS with
    | [] => none
    | c :: rest =>
      if c = '\x7b' then
        match rest.dropWhile isJsonWS with
        | '\x7d' :: r2 => some (Value.map [], r2)
        | _ =>
          match jsonMembers f [] rest with
          | some (es, r2) => some (Value.map es, r2)
          | none => none
      else if c = '[' then
        match rest.dropWhile isJsonWS with
        | ']' :: r2 => some (Value.arr [], r2)
        | _ =>
          match jsonElems f [] rest with
          | some (vs, r2) => some (Value.arr vs, r2)
          | none => none
      else if c = '"' then
        Option.map (fun p => (Value.str p.1, p.2)) (jsonStringRest rest)
      else if c = 't' then
        match rest with
        | 'r' :: 'u' :: 'e' :: r => some (Value.bool true, r)
        | _ => none
      else if c = 'f' then
        match rest with
        | 'a' :: 'l' :: 's' :: 'e' :: r => some (Value.bool false, r)
        | _ => none
      else if c = 'n' then
        match rest with
        | 'u' :: 'l' :: 'l' :: r => some (Value.null, r)
        | _ => none
      else
        Option.map (fun p => (Value.num p.1, p.2)) (jsonNumber (c :: rest))

/-- Members of a JSON object, accumulated left to right with the overwriting
`insertEntry` (duplicate keys keep the last value, as in JS). -/
def jsonMembers : Nat → Mapping → Str → Option (Mapping × Str)
  | 0, _, _ => none
  | Nat.succ f, acc, s =>
    match s.dropWhile isJsonWS with
    | '"' :: r =>
      match jsonStringRest r with
      | none => none
      | some (k, r2) =>
        match r2.dropWhile isJsonWS with
        | ':' :: r3 =>
          match jsonVal f r3 with
          | none => none
          | some (v, r4) =>
            match r4.dropWhile isJsonWS with
            | ',' :: r5 => jsonMembers f (insertEntry k v acc) r5
            | '\x7d' :: r5 => some (insertEntry k v acc, r5)
            | _ => none
        | _ => none
    | _ => none

/-- Elements of a JSON array, accumulated left to right. -/
def jsonElems : Nat → List Value → Str → Option (List Value × Str)
  | 0, _, _ => none
  | Nat.succ f, acc, s =>
    match jsonVal f s with
    | none => none
    | some (v, r) =>
      match r.dropWhile isJsonWS with
      | ',' :: r2 => jsonElems f (acc ++ [v]) r2
      | ']' :: r2 => some (acc ++ [v], r2)
      | _ => none

end

/-- `JSON.parse(text)`: a single JSON value with surrounding whitespace and
nothing else.  Fuel `2 * length + 2` always suffices: each recursion level
consumes at least one character first. -/
def jsonParse (s : Str) : Option Value :=
  match jsonVal (2 * s.length + 2) s with
  | some (v, rest) => if (rest.dropWhile isJsonWS).isEmpty then some v else none
  | none => none

/-! ### The scalar-value branch chain (lines 73-89) and loop advance -/

/-- The chain of branches for a nonempty, non-block value (source lines
73-89): inline JSON for `{`/`[` starts with string fallback, quote stripping,
boolean literals, plain string. -/
def scalarValue (value : Str) : Value :=
  if startsWith1 '\x7b' value then
    match jsonParse value with
    | some v => v
    | none => Value.str value
  else if startsWith1 '[' value then
    match jsonParse value with
    | some v => v
    | none => Value.str value
  else if startsWith1 '"' value && endsWith1 '"' value then
    Value.str (value.drop 1).dropLast
  else if startsWith1 squote value && endsWith1 squote value then
    Value.str (value.drop 1).dropLast
  else if value = "true".toList then Value.bool true
  else if value = "false".toList then Value.bool false
  else Value.str value

/-- JS `typeof` on the stored values. -/
def jsTypeof : Value → String
  | .str _ => "string"
  | .bool _ => "boolean"
  | .num _ => "number"
  | .null => "object"
  | .arr _ => "object"
  | .map _ => "object"

/-- JS `Array.isArray` on the stored values. -/
def isJsArray : Value → Bool
  | .arr _ => true
  | _ => false

/-- The index-advance logic of source lines 90-91, applied to `result[key]`:
`if (!Array.isArray(v) && typeof v !== 'object') i++;
 else if (typeof v === 'string' || typeof v === 'boolean') i++;`.
Note the second line can never fire (a string or boolean already passes the
first test), so arrays and objects never advance the index. -/
def stepAdvances (v : Value) : Bool :=
  if !(isJsArray v) && !(jsTypeof v = "object") then true
  else if jsTypeof v = "string" || jsTypeof v = "boolean" then true
  else false

/-! ### The block parser (`parseYamlBlock`, lines 39-94) -/

/-- The inner child-collection loop (lines 58-67): starting after the key
line, skip blank lines, take lines whose indentation exceeds the key's, stop
at the first non-blank line of indentation less than or equal to the key's.
Returns the collected child lines and the remaining lines. -/
def collectChildren (indent : Nat) : List Str → (List Str × List Str)
  | [] => ([], [])
  | l :: ls =>
    if isBlankLine l then collectChildren indent ls
    else if idxNonWS l ≤ indent then ([], l :: ls)
    else
      match collectChildren indent ls with
      | (cs, rest) => (l :: cs, rest)

/-- `childLines[0].trim().startsWith('- ')` (line 68). -/
def beginsDashSpace (s : Str) : Bool :=
  match s with
  | '-' :: ' ' :: _ => true
  | _ => false

/-- `l.trim().replace(/^-\s*/, '')` applied after trimming: strip one leading
dash and the following whitespace run, if present (line 69). -/
def stripDashWS (s : Str) : Str :=
  match s with
  | '-' :: rest => rest.dropWhile isWS
  | _ => s

/-- The main `while` loop of `parseYamlBlock` over the remaining lines, with
`acc` as `result` so far and one unit of fuel per loop iteration.  The
recursive nested-mapping call `parseYamlBlock(childLines.join('\n'))` is
modelled as a direct recursion on the child lines: the collected lines are
newline-free, so splitting the join returns them unchanged (see
`splitNL_joinNL` below), and for an empty child list both sides produce the
empty mapping. -/
def parseLines : Nat → List Str → Mapping → Option Mapping
  | _, [], acc => some acc
  | 0, _ :: _, _ => none
  | Nat.succ fuel, l :: ls, acc =>
    if isBlankLine l || isCommentLine l then parseLines fuel ls acc
    else
      match matchKV l with
      | none => parseLines fuel ls acc
      | some (key, rawValue) =>
        let indent := idxNonWS l
        let value := trimStr rawValue
        if value = [] || value = ['|'] || value = ['>'] then
          match collectChildren indent ls with
          | (childLines, rest) =>
            if (match childLines with
                | c0 :: _ => beginsDashSpace (trimStr c0)
                | [] => false) then
              parseLines fuel rest
                (insertEntry key
                  (Value.arr (childLines.map
                    (fun cl => Value.str (stripDashWS (trimStr cl))))) acc)
            else
              match parseLines fuel childLines [] with
              | some m => parseLines fuel rest (insertEntry key (Value.map m) acc)
              | none => none
        else
          let v := scalarValue value
          if stepAdvances v then parseLines fuel ls (insertEntry key v acc)
          else parseLines fuel (l :: ls) (insertEntry key v acc)

/-- JS `text.split('\n')` (never empty; `""` splits to `[""]`). -/
def splitNL : Str → List Str
  | [] => [[]]
  | c :: rest =>
    if c = '\n' then [] :: splitNL rest
    else
      match splitNL rest with
      | [] => [[c]]
      | l :: ls => (c :: l) :: ls

/-- JS `lines.join('\n')`. -/
def joinNL : List Str → Str
  | [] => []
  | [l] => l
  | l :: ls => l ++ '\n' :: joinNL ls

/-- `parseYamlBlock(text)` with the given loop fuel. -/
def parseYamlBlockF (fuel : Nat) (text : Str) : Option Mapping :=
  parseLines fuel (splitNL text) []

/-! ### Frontmatter extraction (`parseFrontmatter`, lines 33-37) -/

/-- The pattern characters are a prefix of the string. -/
def beginsChars : List Char → Str → Bool
  | [], _ => true
  | _ :: _, [] => false
  | p :: ps, c :: cs => c = p && beginsChars ps cs

/-- First four characters are a newline followed by three hyphens. -/
def beginsNL3 (s : Str) : Bool :=
  beginsChars ['\n', '-', '-', '-'] s

/-- First five characters are CR, LF and three hyphens. -/
def beginsCRNL3 (s : Str) : Bool :=
  beginsChars ['\r', '\n', '-', '-', '-'] s

/-- The lazy close `\r?\n---` of the regex of line 34 matches at this
position: the greedy `\r?` first tries to take a CR. -/
def closesAt (s : Str) : Bool := beginsCRNL3 s || beginsNL3 s

/-- Lazy search for the first position where the close matches; returns the
captured text before it. -/
def findClose : Str → Option Str
  | [] => none
  | c :: rest =>
    if closesAt (c :: rest) then some []
    else Option.map (fun b => c :: b) (findClose rest)

/-- The anchored open `^---\r?\n` of the regex of line 34: strip it, or fail. -/
def openRest : Str → Option Str
  | '-' :: '-' :: '-' :: '\r' :: '\n' :: rest => some rest
  | '-' :: '-' :: '-' :: '\n' :: rest => some rest
  | _ => none

/-- The capture group of the `content.match` regex of line 34 (anchored open,
lazy capture, close): the frontmatter block text, or `none` when the regex
does not match. -/
def extractBlock (content : Str) : Option Str :=
  match openRest content with
  | none => none
  | some body => findClose body

/-- `parseFrontmatter(content)` with the given loop fuel.  `some none` is the
JS `null` sentinel (no regex match); `some (some m)` is a returned mapping;
`none` means the block parser's loop was still running when the fuel ran out. -/
def parseFrontmatterF (fuel : Nat) (content : Str) : Option (Option Mapping) :=
  match extractBlock content with
  | none => some none
  | some block =>
    match parseYamlBlockF fuel block with
    | some m => some (some m)
    | none => none

/-! ### Predicates used to state the claims -/

/-- Membership of a string in a list of strings, as a boolean. -/
def memS (k : Str) : List Str → Bool
  | [] => false
  | k' :: ks => k' = k || memS k ks

/-- No string occurs twice in the list. -/
def noDupKeys : List Str → Bool
  | [] => true
  | k :: ks => !(memS k ks) && noDupKeys ks

mutual

/-- Every mapping reachable inside the value has pairwise distinct keys. -/
def valueWF : Value → Bool
  | .str _ => true
  | .bool _ => true
  | .num _ => true
  | .null => true
  | .arr vs => valuesWF vs
  | .map es => noDupKeys (es.map Prod.fst) && entriesWF es

/-- `valueWF` on every element of a list. -/
def valuesWF : List Value → Bool
  | [] => true
  | v :: vs => valueWF v && valuesWF vs

/-- `valueWF` on every value of an entry list. -/
def entriesWF : List (Str × Value) → Bool
  | [] => true
  | e :: es => valueWF e.2 && entriesWF es

end

/-- A key that survives the round trip of claim C4: nonempty and made of
`[\w.-]` characters, so the serialized line matches the key/value pattern
with exactly this key. -/
def goodKeyB (k : Str) : Bool :=
  !(k.isEmpty) && k.all isWordDotDash

/-- A string value that survives the round trip of claim C4: trimmed,
nonempty, free of line terminators, and not subject to any coercing branch
of the parser (block marker, boolean literal, inline JSON opener, matching
surrounding quotes). -/
def goodValB (v : Str) : Bool :=
  (trimL v == v) && (trimR v == v) && !(v.isEmpty) && v.all isDotChar &&
  !(v == ['|']) && !(v == ['>']) &&
  !(v == "true".toList) && !(v == "false".toList) &&
  !(startsWith1 '\x7b' v) && !(startsWith1 '[' v) &&
  !(startsWith1 '"' v && endsWith1 '"' v) &&
  !(startsWith1 squote v && endsWith1 squote v)

/-- Serialization of a string-valued mapping into `key: value` lines at zero
indentation (claim C4). -/
def serializeMap (m : List (Str × Str)) : Str :=
  joinNL (m.map (fun p => p.1 ++ ':' :: ' ' :: p.2))

/-- Index of the first line that is exactly three hyphens. -/
def findDelimIdx : List Str → Option Nat
  | [] => none
  | l :: ls =>
    if l = "---".toList then some 0
    else Option.map (· + 1) (findDelimIdx ls)

/-- Claim-side extraction, following the words of claim C5: the frontmatter
block is the text strictly between the opening line (a line that is exactly
three hyphens at the start of the document) and the next LINE that is exactly
three hyphens.  Stated for comparison with the code's `extractBlock`, whose
closing match does not require a full three-hyphen line. -/
def specExtractBlock (content : Str) : Option Str :=
  match splitNL content with
  | [] => none
  | first :: rest =>
    if first = "---".toList then
      Option.map (fun i => joinNL (rest.take i)) (findDelimIdx rest)
    else none

/-- The close pattern (newline then three hyphens) occurs somewhere in `s`. -/
def hasNLDash3 : Str → Bool
  | [] => false
  | c :: rest => beginsNL3 (c :: rest) || hasNLDash3 rest

/-! ## Theorems -/

/-- If one loop iteration leaves the line list unchanged (only updating the
accumulated mapping), the loop never terminates: the result is `none` for
every fuel. -/
theorem parseLines_stuck (l : Str) (ls : List Str) (g : Mapping → Mapping)
    (hstep : ∀ (f : Nat) (acc : Mapping),
      parseLines (f + 1) (l :: ls) acc = parseLines f (l :: ls) (g acc)) :
    ∀ (fuel : Nat) (acc : Mapping), parseLines fuel (l :: ls) acc = none := by
  intro fuel
  induction fuel with
  | zero => intro acc; rfl
  | succ f ih => intro acc; rw [hstep]; exact ih _

/-- A JSON value parsed from text whose first significant character is `{`
is an object. -/
theorem jsonVal_obj_shape (f : Nat) (s : Str) (v : Value) (r : Str)
    (hj : jsonVal f s = some (v, r))
    (hs : startsWith1 '\x7b' (s.dropWhile isJsonWS) = true) :
    ∃ es, v = Value.map es := by
  cases f with
  | zero => exact absurd hj (by simp [jsonVal])
  | succ f =>
    rw [jsonVal] at hj
    split at hj
    · exact absurd hj (by simp)
    · rename_i c rest hdw
      rw [hdw] at hs
      have hc : c = '\x7b' := by simpa [startsWith1] using hs
      subst hc
      rw [if_pos rfl] at hj
      split at hj
      · exact ⟨[], (by injection hj with h; injection h with h1 h2; exact h1.symm)⟩
      · split at hj
        · rename_i es r2 heq
          exact ⟨es, (by injection hj with h; injection h with h1 h2; exact h1.symm)⟩
        · exact absurd hj (by simp)

/-- A JSON value parsed from text whose first significant character is `[`
is an array. -/
theorem jsonVal_arr_shape (f : Nat) (s : Str) (v : Value) (r : Str)
    (hj : jsonVal f s = some (v, r))
    (hs : startsWith1 '[' (s.dropWhile isJsonWS) = true) :
    ∃ vs, v = Value.arr vs := by
  cases f with
  | zero => exact absurd hj (by simp [jsonVal])
  | succ f =>
    rw [jsonVal] at hj
    split at hj
    · exact absurd hj (by simp)
    · rename_i c rest hdw
      rw [hdw] at hs
      have hc : c = '[' := by simpa [startsWith1] using hs
      subst hc
      rw [if_neg (by decide), if_pos rfl] at hj
      split at hj
      · exact ⟨[], (by injection hj with h; injection h with h1 h2; exact h1.symm)⟩
      · split at hj
        · rename_i vs r2 heq
          exact ⟨vs, (by injection hj with h; injection h with h1 h2; exact h1.symm)⟩
        · exact absurd hj (by simp)

/-- If the input starts with a non-whitespace character, `JSON.parse` leaves
it in place when skipping leading whitespace. -/
theorem dropWhile_jsonWS_of_starts (c : Char) (v : Str)
    (hs : startsWith1 c v = true) (hc : isJsonWS c = false) :
    v.dropWhile isJsonWS = v := by
  rcases v with _ | ⟨c', t⟩
  · rfl
  · have : c' = c := by simpa [startsWith1] using hs
    subst this
    simp [List.dropWhile_cons, hc]

/-- A successful `JSON.parse` of text starting with `{` returns an object. -/
theorem jsonParse_obj_shape (v : Str) (w : Value)
    (h : jsonParse v = some w) (hs : startsWith1 '\x7b' v = true) :
    ∃ es, w = Value.map es := by
  unfold jsonParse at h
  split at h
  · rename_i w' r heq
    have hdw : v.dropWhile isJsonWS = v := dropWhile_jsonWS_of_starts _ _ hs (by decide)
    obtain ⟨es, he⟩ := jsonVal_obj_shape _ _ w' r heq (by rw [hdw]; exact hs)
    split at h
    · exact ⟨es, (by injection h with h1; rw [← h1]; exact he)⟩
    · exact absurd h (by simp)
  · exact absurd h (by simp)

/-- A successful `JSON.parse` of text starting with `[` returns an array. -/
theorem jsonParse_arr_shape (v : Str) (w : Value)
    (h : jsonParse v = some w) (hs : startsWith1 '[' v = true) :
    ∃ vs, w = Value.arr vs := by
  unfold jsonParse at h
  split at h
  · rename_i w' r heq
    have hdw : v.dropWhile isJsonWS = v := dropWhile_jsonWS_of_starts _ _ hs (by decide)
    obtain ⟨vs, he⟩ := jsonVal_arr_shape _ _ w' r heq (by rw [hdw]; exact hs)
    split at h
    · exact ⟨vs, (by injection h with h1; rw [← h1]; exact he)⟩
    · exact absurd h (by simp)
  · exact absurd h (by simp)

/-- The block parser never returns a mapping for the single frontmatter line
`obj: \x7b"a": 1\x7d`, whatever the fuel: after the successful inline-JSON
parse the loop index never advances. -/
theorem c1_block_loop :
    ∀ (fuel : Nat) (acc : Mapping),
      parseLines fuel [("obj: \x7b\"a\": 1\x7d".toList)] acc = none :=
  parseLines_stuck _ []
    (insertEntry ("obj".toList) (Value.map [("a".toList, Value.num ['1'])]))
    (fun _ _ => rfl)

/-- C1: the claim states that every call to the parser terminates (returns a
mapping or the failure sentinel).  The code refutes it: on the document
`---\nobj: \x7b"a": 1\x7d\n---` the value parses as inline JSON, the stored
value is an object, and the index-advance logic of lines 90-91 never fires,
so the `while` loop of `parseYamlBlock` never exits.  Formally: for every
fuel, the fueled embedding is still running (`none`). -/
theorem c1_parser_nonterminating :
    ∀ fuel : Nat,
      parseFrontmatterF fuel ("---\nobj: \x7b\"a\": 1\x7d\n---".toList) = none := by
  intro fuel
  show (match parseLines fuel [("obj: \x7b\"a\": 1\x7d".toList)] [] with
        | some m => some (some m)
        | none => none) = none
  rw [c1_block_loop]

/-- The block parser never returns for the two-line block whose first line is
`obj: \x7b"a": 1\x7d`: the loop sticks on the first line. -/
theorem c2_block_loop :
    ∀ (fuel : Nat) (acc : Mapping),
      parseLines fuel [("obj: \x7b\"a\": 1\x7d".toList), ("next: 2".toList)] acc
        = none :=
  parseLines_stuck _ [("next: 2".toList)]
    (insertEntry ("obj".toList) (Value.map [("a".toList, Value.num ['1'])]))
    (fun _ _ => rfl)

/-- C2: the claim states that a `\x7b`/`[`-leading value is JSON-parsed, with
the parsed value stored on success, the raw string stored on failure, and
parsing continuing with the remaining lines in both cases.  The failure half
holds (first conjunct: `obj: \x7bnot json\x7d` stores the raw string and the
next line is still parsed).  The success half is refuted by the code (second
conjunct): with `obj: \x7b"a": 1\x7d` followed by another line, the loop
never advances past the JSON line, so parsing of the remaining lines never
happens and the call never returns. -/
theorem c2_inline_json :
    (parseFrontmatterF 3 ("---\nobj: \x7bnot json\x7d\nnext: 1\n---".toList)
      = some (some [("obj".toList, Value.str ("\x7bnot json\x7d".toList)),
                    ("next".toList, Value.str ['1'])]))
    ∧ ∀ fuel : Nat,
        parseFrontmatterF fuel ("---\nobj: \x7b\"a\": 1\x7d\nnext: 2\n---".toList)
          = none := by
  refine ⟨rfl, ?_⟩
  intro fuel
  show (match parseLines fuel
          [("obj: \x7b\"a\": 1\x7d".toList), ("next: 2".toList)] [] with
        | some m => some (some m)
        | none => none) = none
  rw [c2_block_loop]

/-- The block parser never returns a mapping for the single line `a: \x7b\x7d`:
the empty inline JSON object parses successfully and the loop sticks. -/
theorem c3_block_loop :
    ∀ (fuel : Nat) (acc : Mapping),
      parseLines fuel [("a: \x7b\x7d".toList)] acc = none :=
  parseLines_stuck _ [] (insertEntry ['a'] (Value.map [])) (fun _ _ => rfl)

/-- C3: the two sentinel directions of the claim hold: a document the opening
regex rejects yields the `null` sentinel, and a document that opens but has
no closing match also yields the sentinel (first two conjuncts).  The final
part of the claim — every document with both delimiters gets a mapping back —
is refuted by the code (third conjunct): `---\na: \x7b\x7d\n---` has both
delimiters (its block is extracted), yet the block parser loops forever on
the successfully JSON-parsed value, so no mapping is ever returned. -/
theorem c3_sentinel_iff_malformed :
    (∀ (fuel : Nat) (content : Str), openRest content = none →
      parseFrontmatterF fuel content = some none)
    ∧ (∀ (fuel : Nat) (content body : Str), openRest content = some body →
        findClose body = none → parseFrontmatterF fuel content = some none)
    ∧ extractBlock ("---\na: \x7b\x7d\n---".toList) = some ("a: \x7b\x7d".toList)
    ∧ ∀ fuel : Nat,
        parseFrontmatterF fuel ("---\na: \x7b\x7d\n---".toList) = none := by
  refine ⟨?_, ?_, rfl, ?_⟩
  · intro fuel content h
    simp [parseFrontmatterF, extractBlock, h]
  · intro fuel content body h1 h2
    simp [parseFrontmatterF, extractBlock, h1, h2]
  · intro fuel
    show (match parseLines fuel [("a: \x7b\x7d".toList)] [] with
          | some m => some (some m)
          | none => none) = none
    rw [c3_block_loop]

/-- Witness for C3: both sentinel directions at concrete documents. -/
theorem c3_sentinel_iff_malformed_witness :
    parseFrontmatterF 1 ("no frontmatter here".toList) = some none
    ∧ parseFrontmatterF 1 ("---\nname: x".toList) = some none :=
  ⟨c3_sentinel_iff_malformed.1 1 _ rfl,
   c3_sentinel_iff_malformed.2.1 1 _ ("name: x".toList) rfl rfl⟩

/-- C7: the lines `flag: true` and `flag: false` store booleans, `flag: True`
stores the plain string, and the scalar branch chain produces a boolean for
exactly the two lowercase literals. -/
theorem c7_bool_coercion :
    parseYamlBlockF 1 ("flag: true".toList)
      = some [("flag".toList, Value.bool true)]
    ∧ parseYamlBlockF 1 ("flag: false".toList)
      = some [("flag".toList, Value.bool false)]
    ∧ parseYamlBlockF 1 ("flag: True".toList)
      = some [("flag".toList, Value.str ("True".toList))]
    ∧ ∀ v : Str,
        (∃ b, scalarValue v = Value.bool b) ↔
          (v = "true".toList ∨ v = "false".toList) := by
  refine ⟨rfl, rfl, rfl, ?_⟩
  intro v
  constructor
  · rintro ⟨b, hb⟩
    unfold scalarValue at hb
    by_cases h1 : startsWith1 '\x7b' v = true
    · rw [if_pos h1] at hb
      rcases hj : jsonParse v with _ | w
      · rw [hj] at hb
        exact absurd hb (by simp)
      · rw [hj] at hb
        obtain ⟨es, he⟩ := jsonParse_obj_shape v w hj h1
        rw [he] at hb
        exact absurd hb (by simp)
    · rw [if_neg h1] at hb
      by_cases h2 : startsWith1 '[' v = true
      · rw [if_pos h2] at hb
        rcases hj : jsonParse v with _ | w
        · rw [hj] at hb
          exact absurd hb (by simp)
        · rw [hj] at hb
          obtain ⟨vs, he⟩ := jsonParse_arr_shape v w hj h2
          rw [he] at hb
          exact absurd hb (by simp)
      · rw [if_neg h2] at hb
        by_cases h3 : (startsWith1 '"' v && endsWith1 '"' v) = true
        · rw [if_pos h3] at hb
          exact absurd hb (by simp)
        · rw [if_neg h3] at hb
          by_cases h4 : (startsWith1 squote v && endsWith1 squote v) = true
          · rw [if_pos h4] at hb
            exact absurd hb (by simp)
          · rw [if_neg h4] at hb
            by_cases h5 : v = "true".toList
            · exact Or.inl h5
            · rw [if_neg h5] at hb
              by_cases h6 : v = "false".toList
              · exact Or.inr h6
              · rw [if_neg h6] at hb
                exact absurd hb (by simp)
  · rintro (rfl | rfl)
    · exact ⟨true, rfl⟩
    · exact ⟨false, rfl⟩

/-- Witness for C7: the iff instantiated at the literal `true`. -/
theorem c7_bool_coercion_witness :
    ∃ b, scalarValue ("true".toList) = Value.bool b :=
  (c7_bool_coercion.2.2.2 ("true".toList)).mpr (Or.inl rfl)

/-- `takeWhile` over a run of satisfying characters stops exactly at the
first failing one. -/
theorem takeWhile_append_stop (p : Char → Bool) (k : Str) (c : Char) (t : Str)
    (hk : ∀ x ∈ k, p x = true) (hc : p c = false) :
    (k ++ c :: t).takeWhile p = k := by
  induction k with
  | nil => simp [List.takeWhile_cons, hc]
  | cons a k ih =>
    rw [List.cons_append, List.takeWhile_cons, if_pos (hk a (by simp)),
      ih (fun x hx => hk x (by simp [hx]))]

/-- `dropWhile` over a run of satisfying characters stops exactly at the
first failing one. -/
theorem dropWhile_append_stop (p : Char → Bool) (k : Str) (c : Char) (t : Str)
    (hk : ∀ x ∈ k, p x = true) (hc : p c = false) :
    (k ++ c :: t).dropWhile p = c :: t := by
  induction k with
  | nil => simp [List.dropWhile_cons, hc]
  | cons a k ih =>
    rw [List.cons_append, List.dropWhile_cons, if_pos (hk a (by simp))]
    exact ih (fun x hx => hk x (by simp [hx]))

/-- `takeWhile` keeps a list each of whose characters satisfies the test. -/
theorem takeWhile_of_all (p : Char → Bool) (k : Str)
    (hk : ∀ x ∈ k, p x = true) : k.takeWhile p = k := by
  induction k with
  | nil => rfl
  | cons a k ih =>
    rw [List.takeWhile_cons, if_pos (hk a (by simp)),
      ih (fun x hx => hk x (by simp [hx]))]

/-- Key characters are not whitespace. -/
theorem word_not_ws {c : Char} (h : isWordDotDash c = true) : isWS c = false := by
  cases hw : isWS c
  · rfl
  · exfalso
    simp only [isWS, Bool.or_eq_true, decide_eq_true_eq] at hw
    rcases hw with ((((rfl | rfl) | rfl) | rfl) | rfl) | rfl <;>
      exact absurd h (by decide)

/-- A character in a class is distinct from any character outside it. -/
theorem ne_of_classes {p : Char → Bool} {c d : Char}
    (h : p c = true) (hd : p d = false) : c ≠ d := by
  intro he
  subst he
  rw [h] at hd
  exact Bool.noConfusion hd

/-- A line whose head is not whitespace is not blank. -/
theorem isBlankLine_false_of_head {c : Char} {t : Str} (hc : isWS c = false) :
    isBlankLine (c :: t) = false := by
  simp [isBlankLine, List.all_cons, hc]

/-- A line whose head is not whitespace and not `#` is not a comment. -/
theorem isCommentLine_false_of_head {c : Char} {t : Str}
    (hc : isWS c = false) (hch : c ≠ '#') :
    isCommentLine (c :: t) = false := by
  simp [isCommentLine, List.dropWhile_cons, hc, startsWith1, hch]

/-- A line whose head is not whitespace has indentation `0`. -/
theorem idxNonWS_zero_of_head {c : Char} {t : Str} (hc : isWS c = false) :
    idxNonWS (c :: t) = 0 := by
  simp [idxNonWS, hc]

/-- Evaluation of the key/value regex on a line made of a well-formed key, a
colon, and arbitrary following text. -/
theorem matchKV_eval (k r : Str) (hk1 : k ≠ [])
    (hk2 : ∀ c ∈ k, isWordDotDash c = true) :
    matchKV (k ++ ':' :: r) = some (k, (r.dropWhile isWS).takeWhile isDotChar) := by
  obtain ⟨a, k', rfl⟩ := List.exists_cons_of_ne_nil hk1
  have ha := hk2 a (by simp)
  have hdw : ((a :: k') ++ ':' :: r).dropWhile isWS = (a :: k') ++ ':' :: r := by
    simp [List.dropWhile_cons, word_not_ws ha]
  have htw : ((a :: k') ++ ':' :: r).takeWhile isWordDotDash = a :: k' :=
    takeWhile_append_stop _ _ _ _ hk2 (by decide)
  have hdw2 : ((a :: k') ++ ':' :: r).dropWhile isWordDotDash = ':' :: r :=
    dropWhile_append_stop _ _ _ _ hk2 (by decide)
  unfold matchKV
  rw [hdw, htw, hdw2]
  simp [List.dropWhile_cons, show isWS ':' = false from rfl]

/-- The child-collection loop takes every line when all lines are non-blank
and deeper-indented than the key. -/
theorem collectChildren_all (ind : Nat) (cs : List Str)
    (h : ∀ c ∈ cs, isBlankLine c = false ∧ ind < idxNonWS c) :
    collectChildren ind cs = (cs, []) := by
  induction cs with
  | nil => rfl
  | cons c cs ih =>
    obtain ⟨hb, hi⟩ := h c (by simp)
    rw [collectChildren, hb]
    simp only [Bool.false_eq_true, if_false]
    rw [if_neg (by omega), ih (fun x hx => h x (by simp [hx]))]

/-- Unpacking of `goodKeyB`. -/
theorem goodKeyB_spec {k : Str} (h : goodKeyB k = true) :
    k ≠ [] ∧ ∀ c ∈ k, isWordDotDash c = true := by
  rcases k with _ | ⟨a, k'⟩
  · exact absurd h (by decide)
  · constructor
    · simp
    · simp only [goodKeyB, Bool.and_eq_true, List.all_eq_true] at h
      exact fun c hc => h.2 c hc

/-- The loop exits immediately on an empty line list, with any fuel. -/
theorem parseLines_nil (fuel : Nat) (acc : Mapping) :
    parseLines fuel [] acc = some acc := by
  cases fuel <;> rfl

/-- One step of the block parser on a key line `k:` with an empty value: the
following lines are handed to the child collector, and the result is a
block list or a nested mapping. -/
theorem parseLines_empty_value (fuel : Nat) (k : Str) (ls : List Str)
    (acc : Mapping) (hk : goodKeyB k = true) :
    parseLines (fuel + 1) ((k ++ [':']) :: ls) acc
      = if (match (collectChildren 0 ls).1 with
            | c0 :: _ => beginsDashSpace (trimStr c0)
            | [] => false) then
          parseLines fuel (collectChildren 0 ls).2
            (insertEntry k
              (Value.arr ((collectChildren 0 ls).1.map
                (fun cl => Value.str (stripDashWS (trimStr cl))))) acc)
        else
          match parseLines fuel (collectChildren 0 ls).1 [] with
          | some m =>
            parseLines fuel (collectChildren 0 ls).2 (insertEntry k (Value.map m) acc)
          | none => none := by
  obtain ⟨hk1, hk2⟩ := goodKeyB_spec hk
  obtain ⟨a, k', rfl⟩ := List.exists_cons_of_ne_nil hk1
  have ha := hk2 a (by simp)
  have hkv : matchKV (a :: (k' ++ [':'])) = some (a :: k', []) := by
    have h0 := matchKV_eval (a :: k') [] hk1 hk2
    simpa using h0
  rw [show ((a :: k') ++ [':']) :: ls = (a :: (k' ++ [':'])) :: ls from by simp]
  rw [parseLines]
  rw [isBlankLine_false_of_head (word_not_ws ha),
    isCommentLine_false_of_head (word_not_ws ha)
      (ne_of_classes ha (by decide))]
  simp only [Bool.or_self, Bool.false_eq_true, if_false]
  simp only [hkv]
  rw [idxNonWS_zero_of_head (word_not_ws ha)]
  rw [if_pos (by decide)]

/-- C9 (implicit): a `key:` line with an empty value followed by no
deeper-indented line (the block ends, or the next non-blank line is at
indentation zero) stores the empty nested mapping — not null and not a
string — and parsing continues with the following sibling lines. -/
theorem c9_empty_block :
    (∀ (fuel : Nat) (k : Str) (ls : List Str) (acc : Mapping),
      goodKeyB k = true →
      (ls = [] ∨ ∃ l₀ ls', ls = l₀ :: ls' ∧ isBlankLine l₀ = false ∧ idxNonWS l₀ = 0) →
      parseLines (fuel + 1) ((k ++ [':']) :: ls) acc
        = parseLines fuel ls (insertEntry k (Value.map []) acc))
    ∧ parseYamlBlockF 2 ("a:\nb: 1".toList)
        = some [("a".toList, Value.map []), ("b".toList, Value.str ['1'])] := by
  refine ⟨?_, rfl⟩
  intro fuel k ls acc hk hls
  rw [parseLines_empty_value fuel k ls acc hk]
  have hcol : collectChildren 0 ls = ([], ls) := by
    rcases hls with rfl | ⟨l₀, ls', rfl, hb, hi⟩
    · rfl
    · rw [collectChildren, hb]
      simp only [Bool.false_eq_true, if_false]
      rw [if_pos (by omega)]
  simp only [hcol, parseLines_nil, Bool.false_eq_true, if_false]

/-- Witness for C9: the sibling case at a concrete input. -/
theorem c9_empty_block_witness :
    parseLines 2 (("a".toList ++ [':']) :: [("b: 1".toList)]) []
      = parseLines 1 [("b: 1".toList)] (insertEntry ("a".toList) (Value.map []) []) :=
  c9_empty_block.1 1 ("a".toList) [("b: 1".toList)] [] (by decide)
    (Or.inr ⟨("b: 1".toList), [], rfl, by decide, by decide⟩)

/-- C6: a key with an empty value whose following lines are all non-blank,
deeper-indented and (after trimming) begin with the dash marker parses as an
ordered sequence of strings, one per child line, with the marker and the
surrounding whitespace stripped. -/
theorem c6_dash_list :
    ∀ (fuel : Nat) (k : Str) (c0 : Str) (crest : List Str) (acc : Mapping),
      goodKeyB k = true →
      (∀ c ∈ c0 :: crest, isBlankLine c = false ∧ 0 < idxNonWS c) →
      beginsDashSpace (trimStr c0) = true →
      parseLines (fuel + 1) ((k ++ [':']) :: c0 :: crest) acc
        = some (insertEntry k
            (Value.arr ((c0 :: crest).map
              (fun cl => Value.str (stripDashWS (trimStr cl))))) acc) := by
  intro fuel k c0 crest acc hk hcs hdash
  rw [parseLines_empty_value fuel k (c0 :: crest) acc hk]
  simp only [collectChildren_all 0 (c0 :: crest) hcs]
  rw [if_pos hdash]
  exact parseLines_nil fuel _

/-- Witness for C6: the spec example `items:` with children
`  - a` and `  - b` yields the entry `items -> ["a", "b"]`. -/
theorem c6_dash_list_witness :
    parseYamlBlockF 1 ("items:\n  - a\n  - b".toList)
      = some [("items".toList, Value.arr [Value.str ['a'], Value.str ['b']])] :=
  c6_dash_list 0 ("items".toList) ("  - a".toList) [("  - b".toList)] []
    (by decide) (by decide) (by decide)

/-- Splitting a newline-free line yields just that line. -/
theorem splitNL_no_nl (l : Str) (h : '\n' ∉ l) : splitNL l = [l] := by
  induction l with
  | nil => rfl
  | cons c t ih =>
    have hc : ¬(c = '\n') := fun he => h (by simp [he])
    rw [splitNL, if_neg hc, ih (fun hm => h (by simp [hm]))]

/-- Splitting after a newline-free prefix peels off one line. -/
theorem splitNL_append_nl (l t : Str) (h : '\n' ∉ l) :
    splitNL (l ++ '\n' :: t) = l :: splitNL t := by
  induction l with
  | nil => rw [List.nil_append, splitNL, if_pos rfl]
  | cons c l ih =>
    have hc : ¬(c = '\n') := fun he => h (by simp [he])
    rw [List.cons_append, splitNL, if_neg hc, ih (fun hm => h (by simp [hm]))]

/-- Splitting the join of nonempty, newline-free lines returns the lines:
this identifies the embedded recursion on child-line lists with the source's
`parseYamlBlock(childLines.join('\n'))`. -/
theorem splitNL_joinNL (lines : List Str) (hne : lines ≠ [])
    (h : ∀ l ∈ lines, '\n' ∉ l) : splitNL (joinNL lines) = lines := by
  induction lines with
  | nil => exact absurd rfl hne
  | cons l ls ih =>
    cases ls with
    | nil => exact splitNL_no_nl l (h l (by simp))
    | cons l2 ls2 =>
      rw [show joinNL (l :: l2 :: ls2) = l ++ '\n' :: joinNL (l2 :: ls2) from rfl,
        splitNL_append_nl l _ (h l (by simp))]
      rw [ih (List.cons_ne_nil _ _) (fun x hx => h x (by simp [hx]))]

/-- Assigning a fresh key appends the entry at the end. -/
theorem insertEntry_fresh (k : Str) (v : Value) (acc : Mapping)
    (h : ∀ q ∈ acc, q.1 ≠ k) : insertEntry k v acc = acc ++ [(k, v)] := by
  induction acc with
  | nil => rfl
  | cons q acc ih =>
    rw [insertEntry, if_neg (h q (by simp)), ih (fun q' hq' => h q' (by simp [hq']))]
    rfl

/-- A key absent from a boolean membership test differs from every member. -/
theorem memS_false_spec {k : Str} {ks : List Str} (h : memS k ks = false) :
    ∀ x ∈ ks, x ≠ k := by
  induction ks with
  | nil => intro x hx; exact absurd hx (by simp)
  | cons k' ks ih =>
    rw [memS, Bool.or_eq_false_iff] at h
    intro x hx
    rcases List.mem_cons.mp hx with rfl | hx'
    · exact fun he => by rw [he] at h; exact absurd h.1 (by simp)
    · exact ih h.2 x hx'

/-- A list whose emptiness test is false is not the empty list. -/
theorem ne_nil_of_isEmpty_false {v : Str} (h : v.isEmpty = false) : v ≠ [] := by
  cases v
  · exact absurd h (by decide)
  · exact List.cons_ne_nil _ _

/-- Unpacking of `goodValB`. -/
theorem goodValB_spec {v : Str} (h : goodValB v = true) :
    trimL v = v ∧ trimR v = v ∧ v ≠ [] ∧ (∀ c ∈ v, isDotChar c = true) ∧
    v ≠ ['|'] ∧ v ≠ ['>'] ∧ v ≠ "true".toList ∧ v ≠ "false".toList ∧
    startsWith1 '\x7b' v = false ∧ startsWith1 '[' v = false ∧
    (startsWith1 '"' v && endsWith1 '"' v) = false ∧
    (startsWith1 squote v && endsWith1 squote v) = false := by
  simp only [goodValB, Bool.and_eq_true, beq_iff_eq, Bool.not_eq_true',
    List.all_eq_true, beq_eq_false_iff_ne, ne_eq] at h
  obtain ⟨⟨⟨⟨⟨⟨⟨⟨⟨⟨⟨h1, h2⟩, h3⟩, h4⟩, h5⟩, h6⟩, h7⟩, h8⟩, h9⟩, h10⟩, h11⟩, h12⟩ := h
  exact ⟨h1, h2, ne_nil_of_isEmpty_false h3, fun c hc => h4 c hc,
    h5, h6, h7, h8, h9, h10, h11, h12⟩

/-- The trim of a value fixed by both one-sided trims is the value itself. -/
theorem trimStr_of_fixed {v : Str} (h1 : trimL v = v) (h2 : trimR v = v) :
    trimStr v = v := by
  rw [trimStr, h2, h1]

/-- One step of the block parser on a serialized scalar line `k: v` under the
round-trip conditions: the string value is stored unchanged and the loop
moves to the next line. -/
theorem parseLines_scalar_line (fuel : Nat) (k v : Str) (ls : List Str)
    (acc : Mapping) (hk : goodKeyB k = true) (hv : goodValB v = true) :
    parseLines (fuel + 1) ((k ++ ':' :: ' ' :: v) :: ls) acc
      = parseLines fuel ls (insertEntry k (Value.str v) acc) := by
  obtain ⟨hk1, hk2⟩ := goodKeyB_spec hk
  obtain ⟨hv1, hv2, hv3, hv4, hv5, hv6, hv7, hv8, hv9, hv10, hv11, hv12⟩ :=
    goodValB_spec hv
  obtain ⟨a, k', rfl⟩ := List.exists_cons_of_ne_nil hk1
  have ha := hk2 a (by simp)
  have hkv : matchKV (a :: (k' ++ ':' :: ' ' :: v)) = some (a :: k', v) := by
    have h0 := matchKV_eval (a :: k') (' ' :: v) hk1 hk2
    rw [show ((' ' :: v).dropWhile isWS) = v from by
        rw [List.dropWhile_cons, if_pos (by decide)]; exact hv1] at h0
    rw [takeWhile_of_all _ _ hv4] at h0
    simpa using h0
  have hts : trimStr v = v := trimStr_of_fixed hv1 hv2
  rw [show ((a :: k') ++ ':' :: ' ' :: v) :: ls
      = (a :: (k' ++ ':' :: ' ' :: v)) :: ls from by simp]
  rw [parseLines]
  rw [isBlankLine_false_of_head (word_not_ws ha),
    isCommentLine_false_of_head (word_not_ws ha)
      (ne_of_classes ha (by decide))]
  simp only [Bool.or_self, Bool.false_eq_true, if_false]
  simp only [hkv, hts]
  rw [if_neg (by simp [hv3, hv5, hv6])]
  rw [show scalarValue v = Value.str v from by
    rw [scalarValue, if_neg (by simp [hv9]), if_neg (by simp [hv10]),
      if_neg (by simp [hv11]), if_neg (by simp [hv12]),
      if_neg hv7, if_neg hv8]]
  rw [if_pos (show stepAdvances (Value.str v) = true from rfl)]

/-- The main loop maps serialized scalar lines to appended string entries, in
order, when all keys are fresh. -/
theorem parseLines_roundtrip (m : List (Str × Str)) :
    ∀ (fuel : Nat) (acc : Mapping),
      m.length ≤ fuel →
      noDupKeys (m.map Prod.fst) = true →
      (∀ p ∈ m, goodKeyB p.1 = true ∧ goodValB p.2 = true) →
      (∀ p ∈ m, ∀ q ∈ acc, q.1 ≠ p.1) →
      parseLines fuel (m.map (fun p => p.1 ++ ':' :: ' ' :: p.2)) acc
        = some (acc ++ m.map (fun p => (p.1, Value.str p.2))) := by
  induction m with
  | nil =>
    intro fuel acc _ _ _ _
    simp [parseLines_nil]
  | cons p m ih =>
    intro fuel acc hf h1 h2 hacc
    cases fuel with
    | zero => exact absurd hf (by simp)
    | succ f =>
      rw [List.map_cons, parseLines_scalar_line f p.1 p.2 _ acc
        (h2 p (by simp)).1 (h2 p (by simp)).2]
      rw [insertEntry_fresh p.1 (Value.str p.2) acc
        (fun q hq => hacc p (by simp) q hq)]
      rw [List.map_cons, noDupKeys, Bool.and_eq_true, Bool.not_eq_true'] at h1
      rw [ih f (acc ++ [(p.1, Value.str p.2)])
        (by simpa using Nat.le_of_succ_le_succ hf) h1.2
        (fun q hq => h2 q (by simp [hq]))
        (fun p' hp' q hq => by
          rcases List.mem_append.mp hq with hq' | hq'
          · exact hacc p' (by simp [hp']) q hq'
          · have : q = (p.1, Value.str p.2) := by simpa using hq'
            rw [this]
            exact (memS_false_spec h1.1 p'.1 (List.mem_map_of_mem _ hp')).symm)]
      simp

/-- No character of a serialized round-trip line is a newline. -/
theorem line_no_nl (k v : Str) (hk2 : ∀ c ∈ k, isWordDotDash c = true)
    (hvd : ∀ c ∈ v, isDotChar c = true) : '\n' ∉ (k ++ ':' :: ' ' :: v) := by
  intro hmem
  rcases List.mem_append.mp hmem with hm | hm
  · exact absurd (hk2 _ hm) (by decide)
  · rcases List.mem_cons.mp hm with he | hm2
    · exact absurd he (by decide)
    · rcases List.mem_cons.mp hm2 with he | hm3
      · exact absurd he (by decide)
      · exact absurd (hvd _ hm3) (by decide)

/-- C4 fails as stated: the string-valued mapping `a -> "true"` serializes to
the line `a: true`, which reparses as the boolean `true`, not the string. -/
theorem c4_roundtrip_counterexample :
    ¬ (parseYamlBlockF 2 (serializeMap [("a".toList, "true".toList)])
        = some [("a".toList, Value.str ("true".toList))]) := by
  intro h
  have h2 : (some [(("a".toList : Str), Value.bool true)] : Option Mapping)
      = some [("a".toList, Value.str ("true".toList))] := h
  simp at h2

/-- C4 (amended): for a mapping of scalar string values whose keys are
nonempty `[\w.-]` words without repetition and whose values are trimmed,
nonempty, newline-free and not subject to any coercing branch (not `|`, `>`,
`true`, `false`, not starting with `\x7b` or `[`, not wrapped in matching
quotes), serializing to `key: value` lines at zero indentation and reparsing
yields exactly the original mapping with string values. -/
theorem c4_roundtrip_strings (m : List (Str × Str))
    (h1 : noDupKeys (m.map Prod.fst) = true)
    (h2 : ∀ p ∈ m, goodKeyB p.1 = true ∧ goodValB p.2 = true) :
    parseYamlBlockF (m.length + 1) (serializeMap m)
      = some (m.map (fun p => (p.1, Value.str p.2))) := by
  cases m with
  | nil => rfl
  | cons p m' =>
    rw [parseYamlBlockF, serializeMap]
    rw [splitNL_joinNL _ (by simp) (by
      intro l hl
      rw [List.mem_map] at hl
      obtain ⟨q, hq, rfl⟩ := hl
      exact line_no_nl q.1 q.2 (goodKeyB_spec (h2 q hq).1).2
        (goodValB_spec (h2 q hq).2).2.2.2.1)]
    have := parseLines_roundtrip (p :: m') (List.length (p :: m') + 1) []
      (by omega) h1 h2 (by simp)
    simpa using this

/-- Witness for C4: a two-entry mapping (the spec's `name`/`version` example)
survives the round trip. -/
theorem c4_roundtrip_strings_witness :
    parseYamlBlockF 3
        (serializeMap [("name".toList, "hello-world".toList),
                       ("version".toList, "1.0.0".toList)])
      = some [("name".toList, Value.str ("hello-world".toList)),
              ("version".toList, Value.str ("1.0.0".toList))] :=
  c4_roundtrip_strings
    [("name".toList, "hello-world".toList), ("version".toList, "1.0.0".toList)]
    (by decide) (by decide)

/-- A close match that begins inside a block followed by `\n---` either lies
entirely inside the block or is the appended close itself: a nonempty suffix
of the block cannot combine with the appended text to form `\n---` at its
start unless the block already contains the pattern. -/
theorem beginsNL3_straddle (y rest : Str) (hy : y ≠ [])
    (h : beginsNL3 (y ++ '\n' :: '-' :: '-' :: '-' :: rest) = true) :
    hasNLDash3 y = true := by
  rcases y with _ | ⟨a, _ | ⟨b, _ | ⟨c, _ | ⟨d, y'⟩⟩⟩⟩
  · exact absurd rfl hy
  · simp only [beginsNL3, beginsChars, List.cons_append, List.nil_append,
      Bool.and_eq_true, decide_eq_true_eq] at h
    exact absurd h.2.1 (by decide)
  · simp only [beginsNL3, beginsChars, List.cons_append, List.nil_append,
      Bool.and_eq_true, decide_eq_true_eq] at h
    exact absurd h.2.2.1 (by decide)
  · simp only [beginsNL3, beginsChars, List.cons_append, List.nil_append,
      Bool.and_eq_true, decide_eq_true_eq] at h
    exact absurd h.2.2.2 (by decide)
  · simp only [beginsNL3, beginsChars, List.cons_append, Bool.and_eq_true,
      decide_eq_true_eq] at h
    obtain ⟨rfl, rfl, rfl, rfl, -⟩ := h
    rfl

/-- The CR variant of the straddle argument: a nonempty suffix of the block
followed by `\n---` starts with `\r\n---` only when the suffix is the single
character CR or the block already contains `\n---`. -/
theorem beginsCRNL3_straddle (y rest : Str) (hy : y ≠ [])
    (h : beginsCRNL3 (y ++ '\n' :: '-' :: '-' :: '-' :: rest) = true) :
    y = ['\r'] ∨ hasNLDash3 y = true := by
  rcases y with _ | ⟨a, _ | ⟨b, _ | ⟨c, _ | ⟨d, _ | ⟨e, y'⟩⟩⟩⟩⟩
  · exact absurd rfl hy
  · simp only [beginsCRNL3, beginsChars, List.cons_append, List.nil_append,
      Bool.and_eq_true, decide_eq_true_eq] at h
    exact Or.inl (by rw [h.1])
  · simp only [beginsCRNL3, beginsChars, List.cons_append, List.nil_append,
      Bool.and_eq_true, decide_eq_true_eq] at h
    exact absurd h.2.2.1 (by decide)
  · simp only [beginsCRNL3, beginsChars, List.cons_append, List.nil_append,
      Bool.and_eq_true, decide_eq_true_eq] at h
    exact absurd h.2.2.2.1 (by decide)
  · simp only [beginsCRNL3, beginsChars, List.cons_append, List.nil_append,
      Bool.and_eq_true, decide_eq_true_eq] at h
    exact absurd h.2.2.2.2 (by decide)
  · simp only [beginsCRNL3, beginsChars, List.cons_append, Bool.and_eq_true,
      decide_eq_true_eq] at h
    obtain ⟨rfl, rfl, rfl, rfl, rfl, -⟩ := h
    exact Or.inr rfl

/-- The lazy close search on a block that does not contain the close pattern
and does not end in CR stops exactly at the appended close. -/
theorem findClose_append (b rest : Str) (h1 : hasNLDash3 b = false)
    (h2 : b.getLast? ≠ some '\r') :
    findClose (b ++ '\n' :: '-' :: '-' :: '-' :: rest) = some b := by
  induction b with
  | nil => rfl
  | cons a b' ih =>
    have hb3 : beginsNL3 ((a :: b') ++ '\n' :: '-' :: '-' :: '-' :: rest) = false := by
      cases hx : beginsNL3 ((a :: b') ++ '\n' :: '-' :: '-' :: '-' :: rest)
      · rfl
      · have := beginsNL3_straddle (a :: b') rest (List.cons_ne_nil _ _) hx
        rw [h1] at this
        exact Bool.noConfusion this
    have hb5 : beginsCRNL3 ((a :: b') ++ '\n' :: '-' :: '-' :: '-' :: rest) = false := by
      cases hx : beginsCRNL3 ((a :: b') ++ '\n' :: '-' :: '-' :: '-' :: rest)
      · rfl
      · rcases beginsCRNL3_straddle (a :: b') rest (List.cons_ne_nil _ _) hx with he | hd
        · rw [he] at h2
          exact absurd rfl h2
        · rw [h1] at hd
          exact Bool.noConfusion hd
    have h1' : hasNLDash3 b' = false := by
      rw [hasNLDash3, Bool.or_eq_false_iff] at h1
      exact h1.2
    have h2' : b'.getLast? ≠ some '\r' := by
      cases b' with
      | nil => simp
      | cons x xs => rw [List.getLast?_cons_cons] at h2; exact h2
    rw [List.cons_append] at hb5 hb3
    rw [List.cons_append, findClose, if_neg (by simp only [closesAt, hb5, hb3]; simp)]
    rw [ih h1' h2']
    rfl

/-- C5 fails as stated: in the document `---\na: b\n---x\nc: d\n---\nB` the
code's extraction closes at the line `---x` (which merely begins with three
hyphens), while the claim's closing delimiter — the next line that is exactly
three hyphens — is the later `---`, so the two extractions disagree. -/
theorem c5_extraction_counterexample :
    extractBlock ("---\na: b\n---x\nc: d\n---\nB".toList) = some ("a: b".toList)
    ∧ specExtractBlock ("---\na: b\n---x\nc: d\n---\nB".toList)
        = some ("a: b\n---x\nc: d".toList)
    ∧ ¬(extractBlock ("---\na: b\n---x\nc: d\n---\nB".toList)
        = specExtractBlock ("---\na: b\n---x\nc: d\n---\nB".toList)) := by
  refine ⟨rfl, rfl, ?_⟩
  intro h
  exact absurd h (by decide)

/-- C5 (amended): the closing match is the first occurrence, after the
opening line, of a newline followed by three hyphens (with an optional CR
absorbed before the newline); the closing line need only begin with three
hyphens, and the extracted block is exactly the text before that newline. -/
theorem c5_extraction_amended (b rest : Str)
    (h1 : hasNLDash3 b = false) (h2 : b.getLast? ≠ some '\r') :
    extractBlock ("---\n".toList ++ b ++ '\n' :: '-' :: '-' :: '-' :: rest)
      = some b := by
  have hopen : openRest ("---\n".toList ++ b ++ '\n' :: '-' :: '-' :: '-' :: rest)
      = some (b ++ '\n' :: '-' :: '-' :: '-' :: rest) := rfl
  simp only [extractBlock, hopen]
  exact findClose_append b rest h1 h2

/-- Witness for C5 amended: a one-line block with body text after the close. -/
theorem c5_extraction_amended_witness :
    extractBlock ("---\n".toList ++ "a: b".toList
        ++ '\n' :: '-' :: '-' :: '-' :: ("\nBODY".toList))
      = some ("a: b".toList) :=
  c5_extraction_amended ("a: b".toList) ("\nBODY".toList) (by decide) (by decide)

/-- Boolean key membership agrees with list membership. -/
theorem memS_iff {k : Str} {ks : List Str} : memS k ks = true ↔ k ∈ ks := by
  induction ks with
  | nil => simp [memS]
  | cons k' ks ih =>
    rw [memS, Bool.or_eq_true, decide_eq_true_eq, List.mem_cons]
    constructor
    · rintro (h | h)
      · exact Or.inl h.symm
      · exact Or.inr (ih.mp h)
    · rintro (h | h)
      · exact Or.inl h.symm
      · exact Or.inr (ih.mpr h)

/-- The keys after an assignment are the old keys plus the assigned key. -/
theorem keys_insertEntry (k : Str) (v : Value) (es : Mapping) (x : Str) :
    x ∈ (insertEntry k v es).map Prod.fst ↔ (x = k ∨ x ∈ es.map Prod.fst) := by
  induction es with
  | nil => simp [insertEntry]
  | cons e es ih =>
    rcases e with ⟨k', v'⟩
    rw [insertEntry]
    by_cases he : k' = k
    · subst he
      rw [if_pos rfl]
      simp only [List.map_cons, List.mem_cons]
      tauto
    · rw [if_neg he]
      simp only [List.map_cons, List.mem_cons, ih]
      tauto

/-- Assignment preserves distinctness of keys. -/
theorem noDupKeys_insertEntry (k : Str) (v : Value) (es : Mapping)
    (h : noDupKeys (es.map Prod.fst) = true) :
    noDupKeys ((insertEntry k v es).map Prod.fst) = true := by
  induction es with
  | nil => rfl
  | cons e es ih =>
    rcases e with ⟨k', v'⟩
    rw [List.map_cons, noDupKeys, Bool.and_eq_true, Bool.not_eq_true'] at h
    rw [insertEntry]
    by_cases he : k' = k
    · rw [if_pos he, List.map_cons, noDupKeys, Bool.and_eq_true, Bool.not_eq_true']
      exact ⟨h.1, h.2⟩
    · rw [if_neg he, List.map_cons, noDupKeys, Bool.and_eq_true, Bool.not_eq_true']
      refine ⟨?_, ih h.2⟩
      cases hm : memS k' ((insertEntry k v es).map Prod.fst)
      · rfl
      · exfalso
        rcases (keys_insertEntry k v es k').mp (memS_iff.mp hm) with rfl | hx
        · exact he rfl
        · have hx' := memS_iff.mpr hx
          rw [h.1] at hx'
          exact Bool.noConfusion hx'

/-- Assignment of a well-formed value preserves well-formedness of entries. -/
theorem entriesWF_insertEntry (k : Str) (v : Value) (es : Mapping)
    (hv : valueWF v = true) (h : entriesWF es = true) :
    entriesWF (insertEntry k v es) = true := by
  induction es with
  | nil => simp [insertEntry, entriesWF, hv]
  | cons e es ih =>
    rcases e with ⟨k', v'⟩
    rw [entriesWF, Bool.and_eq_true] at h
    rw [insertEntry]
    by_cases he : k' = k
    · rw [if_pos he, entriesWF, Bool.and_eq_true]
      exact ⟨hv, h.2⟩
    · rw [if_neg he, entriesWF, Bool.and_eq_true]
      exact ⟨h.1, ih h.2⟩

/-- Assignment of a well-formed value preserves mapping well-formedness. -/
theorem mapWF_insertEntry (k : Str) (v : Value) (es : Mapping)
    (hv : valueWF v = true) (h : valueWF (Value.map es) = true) :
    valueWF (Value.map (insertEntry k v es)) = true := by
  rw [valueWF, Bool.and_eq_true] at h ⊢
  exact ⟨noDupKeys_insertEntry k v es h.1, entriesWF_insertEntry k v es hv h.2⟩

/-- `valuesWF` distributes over append. -/
theorem valuesWF_append (xs ys : List Value) :
    valuesWF (xs ++ ys) = (valuesWF xs && valuesWF ys) := by
  induction xs with
  | nil => simp [valuesWF]
  | cons x xs ih => rw [List.cons_append, valuesWF, valuesWF, ih, Bool.and_assoc]

/-- Every value produced by the JSON parser is well-formed: object keys are
pairwise distinct at every nesting level (duplicates are overwritten by the
accumulating `insertEntry`, as in JS). -/
theorem json_WF : ∀ f : Nat,
    (∀ s v r, jsonVal f s = some (v, r) → valueWF v = true)
    ∧ (∀ acc s es r, jsonMembers f acc s = some (es, r) →
        valueWF (Value.map acc) = true → valueWF (Value.map es) = true)
    ∧ (∀ acc s vs r, jsonElems f acc s = some (vs, r) →
        valuesWF acc = true → valuesWF vs = true) := by
  intro f
  induction f with
  | zero =>
    refine ⟨?_, ?_, ?_⟩
    · intro s v r h
      exact absurd h (by simp [jsonVal])
    · intro acc s es r h _
      exact absurd h (by simp [jsonMembers])
    · intro acc s vs r h _
      exact absurd h (by simp [jsonElems])
  | succ f ih =>
    obtain ⟨ihP, ihQ, ihR⟩ := ih
    refine ⟨?_, ?_, ?_⟩
    · intro s v r h
      rw [jsonVal] at h
      split at h
      · exact absurd h (by simp)
      · rename_i c rest hdw
        by_cases h1 : c = '\x7b'
        · rw [if_pos h1] at h
          split at h
          · injection h with h'
            injection h' with hv hr
            rw [← hv]
            rfl
          · split at h
            · rename_i es r2 heq
              injection h with h'
              injection h' with hv hr
              rw [← hv]
              exact ihQ [] rest es r2 heq rfl
            · exact absurd h (by simp)
        · rw [if_neg h1] at h
          by_cases h2 : c = '['
          · rw [if_pos h2] at h
            split at h
            · injection h with h'
              injection h' with hv hr
              rw [← hv]
              rfl
            · split at h
              · rename_i vs r2 heq
                injection h with h'
                injection h' with hv hr
                rw [← hv]
                exact ihR [] rest vs r2 heq rfl
              · exact absurd h (by simp)
          · rw [if_neg h2] at h
            by_cases h3 : c = '"'
            · rw [if_pos h3] at h
              rcases hjs : jsonStringRest rest with _ | p
              · rw [hjs] at h
                exact absurd h (by simp)
              · rw [hjs] at h
                simp only [Option.map_some'] at h
                injection h with h'
                injection h' with hv hr
                rw [← hv]
                rfl
            · rw [if_neg h3] at h
              by_cases h4 : c = 't'
              · rw [if_pos h4] at h
                split at h
                · injection h with h'
                  injection h' with hv hr
                  rw [← hv]
                  rfl
                · exact absurd h (by simp)
              · rw [if_neg h4] at h
                by_cases h5 : c = 'f'
                · rw [if_pos h5] at h
                  split at h
                  · injection h with h'
                    injection h' with hv hr
                    rw [← hv]
                    rfl
                  · exact absurd h (by simp)
                · rw [if_neg h5] at h
                  by_cases h6 : c = 'n'
                  · rw [if_pos h6] at h
                    split at h
                    · injection h with h'
                      injection h' with hv hr
                      rw [← hv]
                      rfl
                    · exact absurd h (by simp)
                  · rw [if_neg h6] at h
                    rcases hjn : jsonNumber (c :: rest) with _ | p
                    · rw [hjn] at h
                      exact absurd h (by simp)
                    · rw [hjn] at h
                      simp only [Option.map_some'] at h
                      injection h with h'
                      injection h' with hv hr
                      rw [← hv]
                      rfl
    · intro acc s es r h hacc
      rw [jsonMembers] at h
      split at h
      · rename_i r0 hdw
        split at h
        · exact absurd h (by simp)
        · rename_i k r2 heq
          split at h
          · rename_i r3 hdw2
            split at h
            · exact absurd h (by simp)
            · rename_i v r4 heqv
              have hv := ihP r3 v r4 heqv
              split at h
              · rename_i r5 hdw3
                exact ihQ (insertEntry k v acc) r5 es r h
                  (mapWF_insertEntry k v acc hv hacc)
              · rename_i r5 hdw3
                injection h with h'
                injection h' with hes hr
                rw [← hes]
                exact mapWF_insertEntry k v acc hv hacc
              · exact absurd h (by simp)
          · exact absurd h (by simp)
      · exact absurd h (by simp)
    · intro acc s vs r h hacc
      rw [jsonElems] at h
      split at h
      · exact absurd h (by simp)
      · rename_i v r2 heq
        have hv := ihP s v r2 heq
        split at h
        · rename_i r3 hdw
          exact ihR (acc ++ [v]) r3 vs r h
            (by rw [valuesWF_append, hacc]; simp [valuesWF, hv])
        · rename_i r3 hdw
          injection h with h'
          injection h' with hvs hr
          rw [← hvs, valuesWF_append, hacc]
          simp [valuesWF, hv]
        · exact absurd h (by simp)

/-- Every value returned by `JSON.parse` is well-formed. -/
theorem jsonParse_WF (s : Str) (w : Value) (h : jsonParse s = some w) :
    valueWF w = true := by
  unfold jsonParse at h
  split at h
  · rename_i v r heq
    split at h
    · injection h with h'
      rw [← h']
      exact (json_WF _).1 s v r heq
    · exact absurd h (by simp)
  · exact absurd h (by simp)

/-- Every value produced by the scalar branch chain is well-formed. -/
theorem scalarValue_WF (v : Str) : valueWF (scalarValue v) = true := by
  rw [scalarValue]
  by_cases h1 : startsWith1 '\x7b' v = true
  · rw [if_pos h1]
    split
    · rename_i w heq
      exact jsonParse_WF v w heq
    · rfl
  · rw [if_neg h1]
    by_cases h2 : startsWith1 '[' v = true
    · rw [if_pos h2]
      split
      · rename_i w heq
        exact jsonParse_WF v w heq
      · rfl
    · rw [if_neg h2]
      by_cases h3 : (startsWith1 '"' v && endsWith1 '"' v) = true
      · rw [if_pos h3]; rfl
      · rw [if_neg h3]
        by_cases h4 : (startsWith1 squote v && endsWith1 squote v) = true
        · rw [if_pos h4]; rfl
        · rw [if_neg h4]
          by_cases h5 : v = "true".toList
          · rw [if_pos h5]; rfl
          · rw [if_neg h5]
            by_cases h6 : v = "false".toList
            · rw [if_pos h6]; rfl
            · rw [if_neg h6]; rfl

/-- A list of string values is always well-formed. -/
theorem valuesWF_map_str (g : Str → Str) (l : List Str) :
    valuesWF (l.map (fun x => Value.str (g x))) = true := by
  induction l with
  | nil => rfl
  | cons x l ih =>
    rw [List.map_cons, valuesWF]
    simp [valueWF, ih]

/-- Every mapping the block-parser loop returns is well-formed when the
accumulator is, including every nested mapping inside its values. -/
theorem parseLines_WF : ∀ (fuel : Nat) (lines : List Str) (acc m : Mapping),
    valueWF (Value.map acc) = true → parseLines fuel lines acc = some m →
    valueWF (Value.map m) = true := by
  intro fuel
  induction fuel with
  | zero =>
    intro lines acc m hacc hp
    cases lines with
    | nil =>
      rw [parseLines_nil] at hp
      injection hp with h'
      rw [← h']
      exact hacc
    | cons l ls => exact absurd hp (by simp [parseLines])
  | succ f ih =>
    intro lines acc m hacc hp
    cases lines with
    | nil =>
      rw [parseLines_nil] at hp
      injection hp with h'
      rw [← h']
      exact hacc
    | cons l ls =>
      rw [parseLines] at hp
      split at hp
      · exact ih ls acc m hacc hp
      · split at hp
        · exact ih ls acc m hacc hp
        · rename_i key raw hkv
          dsimp only at hp
          split at hp
          · split at hp
            · exact ih _ _ m
                (mapWF_insertEntry _ _ _
                  (by rw [valueWF]; exact valuesWF_map_str (fun cl => stripDashWS (trimStr cl)) _) hacc)
                hp
            · split at hp
              · rename_i m' heq
                exact ih _ _ m
                  (mapWF_insertEntry _ _ _ (ih _ [] m' rfl heq) hacc) hp
              · exact absurd hp (by simp)
          · split at hp
            · exact ih _ _ m
                (mapWF_insertEntry _ _ _ (scalarValue_WF _) hacc) hp
            · exact ih _ _ m
                (mapWF_insertEntry _ _ _ (scalarValue_WF _) hacc) hp

/-- C8: every mapping the parser produces — including nested mappings inside
values, whether from nested blocks or inline JSON — has pairwise distinct
keys, and a duplicated key on two entry lines of one block keeps the later
line's value (last-write-wins, shown on `a: 1\na: 2`). -/
theorem c8_unique_keys :
    (∀ (fuel : Nat) (text : Str) (m : Mapping),
      parseYamlBlockF fuel text = some m → valueWF (Value.map m) = true)
    ∧ parseYamlBlockF 2 ("a: 1\na: 2".toList)
        = some [("a".toList, Value.str ['2'])] := by
  refine ⟨?_, rfl⟩
  intro fuel text m h
  exact parseLines_WF fuel (splitNL text) [] m rfl h

/-- Witness for C8: the invariant evaluated on the concrete duplicate-key
parse result. -/
theorem c8_unique_keys_witness :
    valueWF (Value.map [("a".toList, Value.str ['2'])]) = true :=
  c8_unique_keys.1 2 ("a: 1\na: 2".toList) _ c8_unique_keys.2

/-- C10: a value that is a single double- or single-quote character satisfies
both the starts-with and ends-with test with the same character, so it is
sliced to the empty string, not kept as a one-character string. -/
theorem c10_lone_quote :
    parseYamlBlockF 1 ("q: \"".toList) = some [("q".toList, Value.str [])]
    ∧ parseYamlBlockF 1 ['q', ':', ' ', squote] = some [("q".toList, Value.str [])]
    ∧ scalarValue ['"'] = Value.str []
    ∧ scalarValue [squote] = Value.str [] :=
  ⟨rfl, rfl, rfl, rfl⟩

end VSkill
